import Mathlib

/-!
Verification of the nfdump2parquet repository's coalescing and dispatch
pipeline, shallowly embedded in Lean.

The embedding covers:
* `coalesce` — the greedy bin-packing generator of `src/coalesce.py`
  (lines 56–81), modelled as a structurally recursive function over the
  input list, carrying the loop state (current batch, current size).
* `stream_to_parquet` — the schema-enforcing sink of `src/coalesce.py`
  (lines 34–44), modelled over an abstract cast operation that may fail
  (pyarrow `Table.cast` raises on incompatible schemas).
* the directory listing / regex filters of `src/coalesce.py`
  (`list_files`, pattern `\d{12}.*\.parquet`) and of
  `src/nfdump2parquet.py` (`list_files`, pattern `nfcapd\.\d{12}`) and
  the watcher regex `.*/nfcapd.\d{12}` of `src/watch.py`.  Strings are
  modelled as `List Char`; Python's `re.match` anchors at the start of
  the string only, and `.` matches any character except newline — the
  matchers below implement exactly that.
* the per-hour compaction step of `main` in `src/coalesce.py`
  (lines 272–283), with the fallible parquet write abstracted as an
  `Except` value.
* the current-date filter of `main` in `src/coalesce.py` (line 262).
-/

namespace N2P

/-! ### The bin-packing coalescer (`src/coalesce.py`, `coalesce`) -/

/-- Loop state of `coalesce`: the generator iterates over `items`
carrying the mutable `batch` and `current_size`.  At each item: if
`current_size + this_size > max_size`, yield the current batch and start
a fresh one with this item; otherwise append the item.  After the loop,
yield the final batch if non-empty.  Direct transcription of
`src/coalesce.py` lines 70–81. -/
def coalesceAux {T : Type} (sizer : T → Nat) (maxSize : Nat) :
    List T → List T → Nat → List (List T)
  | [], batch, _ => if batch.isEmpty then [] else [batch]
  | item :: items, batch, currentSize =>
    if currentSize + sizer item > maxSize then
      batch :: coalesceAux sizer maxSize items [item] (sizer item)
    else
      coalesceAux sizer maxSize items (batch ++ [item]) (currentSize + sizer item)

/-- `coalesce(items, max_size, sizer)` of `src/coalesce.py`: the loop is
entered with an empty batch and size 0. -/
def coalesce {T : Type} (items : List T) (maxSize : Nat) (sizer : T → Nat) :
    List (List T) :=
  coalesceAux sizer maxSize items [] 0

/-- The generator never loses, duplicates or reorders items: flattening
its output prepends the pending batch to the remaining input. -/
theorem coalesceAux_flatten {T : Type} (sizer : T → Nat) (maxSize : Nat) :
    ∀ (items batch : List T) (currentSize : Nat),
      (coalesceAux sizer maxSize items batch currentSize).flatten = batch ++ items := by
  intro items
  induction items with
  | nil =>
    intro batch currentSize
    cases batch with
    | nil => simp [coalesceAux]
    | cons b bs => simp [coalesceAux]
  | cons item items ih =>
    intro batch currentSize
    by_cases h : currentSize + sizer item > maxSize
    · simp [coalesceAux, h, ih]
    · simp [coalesceAux, h, ih]

/-- Invariant of the generator's state: whenever `currentSize` is the
total size of `batch` and `batch` is either within the ceiling or an
oversized singleton, every yielded group is within the ceiling or an
oversized singleton. -/
theorem coalesceAux_mem_bound {T : Type} (sizer : T → Nat) (maxSize : Nat) :
    ∀ (items batch : List T) (currentSize : Nat),
      currentSize = (batch.map sizer).sum →
      (currentSize ≤ maxSize ∨ ∃ x, batch = [x] ∧ maxSize < sizer x) →
      ∀ g ∈ coalesceAux sizer maxSize items batch currentSize,
        (g.map sizer).sum ≤ maxSize ∨ ∃ x, g = [x] ∧ maxSize < sizer x := by
  intro items
  induction items with
  | nil =>
    intro batch currentSize hsum hinv g hg
    cases batch with
    | nil => simp [coalesceAux] at hg
    | cons b bs =>
      simp [coalesceAux] at hg
      subst hg
      rcases hinv with hle | hover
      · exact Or.inl (hsum ▸ hle)
      · exact Or.inr hover
  | cons item items ih =>
    intro batch currentSize hsum hinv g hg
    by_cases h : currentSize + sizer item > maxSize
    · simp only [coalesceAux, if_pos h, List.mem_cons] at hg
      rcases hg with rfl | hg
      · rcases hinv with hle | hover
        · exact Or.inl (hsum ▸ hle)
        · exact Or.inr hover
      · refine ih [item] (sizer item) (by simp) ?_ g hg
        by_cases hitem : sizer item ≤ maxSize
        · exact Or.inl hitem
        · exact Or.inr ⟨item, rfl, Nat.lt_of_not_le hitem⟩
    · simp only [coalesceAux, if_neg h] at hg
      refine ih (batch ++ [item]) (currentSize + sizer item) ?_ ?_ g hg
      · simp [hsum]
      · exact Or.inl (Nat.le_of_not_lt h)

/-- If the pending batch is non-empty, every group the generator yields
is non-empty. -/
theorem coalesceAux_ne_nil {T : Type} (sizer : T → Nat) (maxSize : Nat) :
    ∀ (items batch : List T) (currentSize : Nat),
      batch ≠ [] →
      ∀ g ∈ coalesceAux sizer maxSize items batch currentSize, g ≠ [] := by
  intro items
  induction items with
  | nil =>
    intro batch currentSize hb g hg
    cases batch with
    | nil => exact absurd rfl hb
    | cons b bs =>
      simp [coalesceAux] at hg
      simp [hg]
  | cons item items ih =>
    intro batch currentSize hb g hg
    by_cases h : currentSize + sizer item > maxSize
    · simp only [coalesceAux, if_pos h, List.mem_cons] at hg
      rcases hg with rfl | hg
      · exact hb
      · exact ih [item] (sizer item) (by simp) g hg
    · simp only [coalesceAux, if_neg h] at hg
      exact ih (batch ++ [item]) (currentSize + sizer item) (by simp) g hg

/-- With all item sizes zero and the running size within the ceiling,
the generator packs everything into the pending batch. -/
theorem coalesceAux_all_zero {T : Type} (sizer : T → Nat) (maxSize : Nat) :
    ∀ (items batch : List T) (currentSize : Nat),
      (∀ x ∈ items, sizer x = 0) →
      currentSize ≤ maxSize →
      coalesceAux sizer maxSize items batch currentSize =
        if (batch ++ items).isEmpty then [] else [batch ++ items] := by
  intro items
  induction items with
  | nil =>
    intro batch currentSize _ _
    simp only [coalesceAux, List.append_nil]
  | cons item items ih =>
    intro batch currentSize hzero hle
    have hz : sizer item = 0 := hzero item (List.mem_cons_self _ _)
    have hnot : ¬ currentSize + sizer item > maxSize := by omega
    rw [coalesceAux, if_neg hnot,
        ih (batch ++ [item]) (currentSize + sizer item)
          (fun x hx => hzero x (List.mem_cons_of_mem _ hx)) (by omega)]
    simp

/-- C1: for every sequence of sized items and every positive ceiling
`max_size`, every group yielded by `coalesce` has a sum of member sizes
at most `max_size`, unless the group is a singleton whose sole item's
own size exceeds `max_size`, in which case that item is emitted alone
rather than causing an error. -/
theorem coalesce_group_size_bound {T : Type} (items : List T) (maxSize : Nat)
    (sizer : T → Nat) (_hpos : 0 < maxSize) :
    ∀ g ∈ coalesce items maxSize sizer,
      (g.map sizer).sum ≤ maxSize ∨ ∃ x, g = [x] ∧ maxSize < sizer x :=
  coalesceAux_mem_bound sizer maxSize items [] 0 (by simp) (Or.inl (Nat.zero_le _))

theorem coalesce_group_size_bound_witness :
    ([11].map id).sum ≤ 10 ∨ ∃ x, [11] = [x] ∧ 10 < id x :=
  coalesce_group_size_bound [1, 2, 11, 4, 4, 1, 2] 10 id (by decide) [11] (by decide)

/-- C2: concatenating, in emission order, the items of all groups
yielded by `coalesce` reproduces the original input sequence exactly:
no item dropped, none duplicated, relative order preserved. -/
theorem coalesce_flatten_eq {T : Type} (items : List T) (maxSize : Nat)
    (sizer : T → Nat) (_hpos : 0 < maxSize) :
    (coalesce items maxSize sizer).flatten = items := by
  simpa using coalesceAux_flatten sizer maxSize items [] 0

theorem coalesce_flatten_eq_witness :
    (coalesce [1, 2, 11, 4, 4, 1, 2] 10 id).flatten = [1, 2, 11, 4, 4, 1, 2] :=
  coalesce_flatten_eq [1, 2, 11, 4, 4, 1, 2] 10 id (by decide)

/-- C7: for every positive ceiling, `coalesce` applied to the empty
input yields no groups, and applied to any non-empty sequence of items
whose sizes are all zero yields exactly one group equal to the full
input sequence. -/
theorem coalesce_empty_and_all_zero {T : Type} (maxSize : Nat)
    (sizer : T → Nat) (_hpos : 0 < maxSize) :
    coalesce ([] : List T) maxSize sizer = [] ∧
    ∀ items : List T, items ≠ [] → (∀ x ∈ items, sizer x = 0) →
      coalesce items maxSize sizer = [items] := by
  constructor
  · rfl
  · intro items hne hzero
    rw [coalesce, coalesceAux_all_zero sizer maxSize items [] 0 hzero (Nat.zero_le _)]
    cases items with
    | nil => exact absurd rfl hne
    | cons x xs => simp

theorem coalesce_empty_and_all_zero_witness :
    coalesce [(), ()] 5 (fun _ => 0) = [[(), ()]] :=
  (coalesce_empty_and_all_zero 5 (fun _ => 0) (by decide)).2 [(), ()]
    (by decide) (fun _ _ => rfl)

/-- C9: if the first item of the input has size strictly greater than
`max_size`, the first group yielded by `coalesce` is the empty group;
and this is the only circumstance in which `coalesce` ever yields an
empty group — every group in the tail of the output is non-empty, and
an empty group in the output forces an oversized first item. -/
theorem coalesce_empty_group {T : Type} (items : List T) (maxSize : Nat)
    (sizer : T → Nat) :
    (∀ x rest, items = x :: rest → maxSize < sizer x →
        (coalesce items maxSize sizer).head? = some []) ∧
    (∀ g ∈ (coalesce items maxSize sizer).tail, g ≠ []) ∧
    ([] ∈ coalesce items maxSize sizer →
        ∃ x rest, items = x :: rest ∧ maxSize < sizer x) := by
  refine ⟨?_, ?_, ?_⟩
  · rintro x rest rfl hover
    have h : 0 + sizer x > maxSize := by omega
    rw [coalesce, coalesceAux, if_pos h]
    rfl
  · cases items with
    | nil => simp [coalesce, coalesceAux]
    | cons x rest =>
      by_cases h : 0 + sizer x > maxSize
      · intro g hg
        rw [coalesce, coalesceAux, if_pos h] at hg
        exact coalesceAux_ne_nil sizer maxSize rest [x] (sizer x) (by simp) g hg
      · intro g hg
        rw [coalesce, coalesceAux, if_neg h] at hg
        exact coalesceAux_ne_nil sizer maxSize rest ([] ++ [x]) (0 + sizer x)
          (by simp) g (List.mem_of_mem_tail hg)
  · cases items with
    | nil =>
      intro hmem
      simp [coalesce, coalesceAux] at hmem
    | cons x rest =>
      intro hmem
      by_cases h : 0 + sizer x > maxSize
      · exact ⟨x, rest, rfl, by omega⟩
      · rw [coalesce, coalesceAux, if_neg h] at hmem
        exact absurd rfl
          (coalesceAux_ne_nil sizer maxSize rest ([] ++ [x]) (0 + sizer x)
            (by simp) [] hmem)

theorem coalesce_empty_group_witness :
    (coalesce [5] 3 id).head? = some [] :=
  (coalesce_empty_group [5] 3 id).1 5 [] rfl (by decide)

/-! ### The schema-enforcing sink (`src/coalesce.py`, `stream_to_parquet`) -/

/-- A row-batch table reduced to the two attributes the sink inspects:
an abstract schema identifier and a payload standing for the rows. -/
structure PTable where
  schema : Nat
  payload : Nat
deriving DecidableEq

/-- The writer loop over the remaining tables of `stream_to_parquet`
(`src/coalesce.py` lines 42–44): each table is cast to the established
schema and written; `pa.Table.cast` raises on an incompatible schema,
which ends the loop with nothing further written.  Returns the tables
actually written by the loop and whether it aborted on a cast error. -/
def writeTables (tryCast : PTable → Nat → Option PTable) (schema : Nat) :
    List PTable → List PTable × Bool
  | [] => ([], false)
  | t :: ts =>
    match tryCast t schema with
    | none => ([], true)
    | some t2 =>
      let r := writeTables tryCast schema ts
      (t2 :: r.1, r.2)

/-- `stream_to_parquet(path, tables)` (`src/coalesce.py` lines 34–44):
an empty input writes nothing; otherwise the first table fixes the
output schema and is written as-is, and every later table is cast to
that schema before being written.  The fallible pyarrow cast is the
`tryCast` parameter.  Returns the tables written in order and whether a
cast failure aborted the write. -/
def stream_to_parquet (tryCast : PTable → Nat → Option PTable) :
    List PTable → List PTable × Bool
  | [] => ([], false)
  | first :: rest =>
    let r := writeTables tryCast first.schema rest
    (first :: r.1, r.2)

/-- A concrete cast in the style of pyarrow: it succeeds exactly when
the table already carries the target schema. -/
def castExact (t : PTable) (schema : Nat) : Option PTable :=
  if t.schema = schema then some t else none

/-- C4 counterexample: streaming `[⟨0,1⟩, ⟨1,2⟩, ⟨0,3⟩]` where the
second table cannot be cast to the schema fixed by the first, the write
aborts — the offending batch is not skipped, and the castable third
table is never written, contrary to the claim that the rest of the
stream continues. -/
theorem stream_to_parquet_not_skip :
    stream_to_parquet castExact [⟨0, 1⟩, ⟨1, 2⟩, ⟨0, 3⟩] = ([⟨0, 1⟩], true) ∧
    (⟨0, 3⟩ : PTable) ∉ (stream_to_parquet castExact [⟨0, 1⟩, ⟨1, 2⟩, ⟨0, 3⟩]).1 := by
  decide

/-- Writer loop on a run of castable tables followed by an uncastable
one: the castable run is written, then the cast failure aborts. -/
theorem writeTables_abort (tryCast : PTable → Nat → Option PTable) (schema : Nat)
    (bad : PTable) (post : List PTable) (hbad : tryCast bad schema = none) :
    ∀ pre : List PTable, (∀ t ∈ pre, (tryCast t schema).isSome) →
      writeTables tryCast schema (pre ++ bad :: post) =
        (pre.filterMap (fun t => tryCast t schema), true) := by
  intro pre
  induction pre with
  | nil =>
    intro _
    simp [writeTables, hbad]
  | cons p ps ih =>
    intro hpre
    have hp : (tryCast p schema).isSome := hpre p (List.mem_cons_self _ _)
    rcases Option.isSome_iff_exists.mp hp with ⟨t2, ht2⟩
    simp [writeTables, ht2, ih (fun t ht => hpre t (List.mem_cons_of_mem _ ht))]

/-- C4 amended: when a table of the stream cannot be cast to the schema
fixed by the first table, the cast failure surfaces as a write error
that aborts the stream: the tables before the failure are written, and
neither the offending table nor any later table is written — the rest
of the stream does not continue. -/
theorem stream_to_parquet_abort_on_cast_failure
    (tryCast : PTable → Nat → Option PTable) (first bad : PTable)
    (pre post : List PTable)
    (hpre : ∀ t ∈ pre, (tryCast t first.schema).isSome)
    (hbad : tryCast bad first.schema = none) :
    stream_to_parquet tryCast (first :: (pre ++ bad :: post)) =
      (first :: pre.filterMap (fun t => tryCast t first.schema), true) := by
  simp [stream_to_parquet, writeTables_abort tryCast first.schema bad post hbad pre hpre]

theorem stream_to_parquet_abort_witness :
    stream_to_parquet castExact [⟨0, 1⟩, ⟨0, 2⟩, ⟨1, 3⟩, ⟨0, 4⟩] =
      ([⟨0, 1⟩, ⟨0, 2⟩], true) := by
  have h := stream_to_parquet_abort_on_cast_failure castExact ⟨0, 1⟩ ⟨1, 3⟩
    [⟨0, 2⟩] [⟨0, 4⟩] (by decide) (by decide)
  simpa using h

/-! ### Current-date exclusion (`src/coalesce.py`, `main` lines 256–262) -/

/-- Python `str.endswith`: true iff the last `len(suffix)` characters
of `s` equal `suffix`. -/
def endswith (s suffix : List Char) : Bool :=
  decide (s.drop (s.length - suffix.length) = suffix)

/-- `datelist = [date for date in datelist if not date.endswith(datenow)]`
(`src/coalesce.py` line 262): the date buckets kept for compaction, with
the bucket of the current wall-clock date dropped. -/
def dropCurrentDate (datelist : List (List Char)) (datenow : List Char) :
    List (List Char) :=
  datelist.filter (fun date => !endswith date datenow)

/-- C5: a `date=`-directory whose date label equals the current
wall-clock date is never kept for compaction (hour directories are only
enumerated for kept dates, so no hour of it is ever compacted), while
every listed directory whose same-width label differs from today — in
particular every date strictly before today — is kept. -/
theorem current_day_excluded (datelist : List (List Char))
    (datenow lbl : List Char) (hlen : lbl.length = datenow.length) :
    (lbl = datenow →
        ("date=".data ++ lbl) ∉ dropCurrentDate datelist datenow) ∧
    (lbl ≠ datenow → ("date=".data ++ lbl) ∈ datelist →
        ("date=".data ++ lbl) ∈ dropCurrentDate datelist datenow) := by
  have h5 : ("date=".data).length = 5 := rfl
  have hkey : endswith ("date=".data ++ lbl) datenow = true ↔ lbl = datenow := by
    unfold endswith
    rw [decide_eq_true_iff]
    have h1 : ("date=".data ++ lbl).length - datenow.length = ("date=".data).length := by
      rw [List.length_append, h5, hlen]
      omega
    rw [h1, List.drop_left]
  constructor
  · rintro rfl hmem
    rw [dropCurrentDate, List.mem_filter] at hmem
    rw [Bool.not_eq_true', ← Bool.not_eq_true] at hmem
    exact hmem.2 (hkey.mpr rfl)
  · intro hne hmem
    rw [dropCurrentDate, List.mem_filter]
    refine ⟨hmem, ?_⟩
    rw [Bool.not_eq_true']
    rcases h : endswith ("date=".data ++ lbl) datenow with _ | _
    · rfl
    · exact absurd (hkey.mp h) hne

theorem current_day_excluded_witness :
    ("date=".data ++ "2024-01-02".data) ∉
      dropCurrentDate ["date=2024-01-01".data, "date=2024-01-02".data]
        "2024-01-02".data ∧
    ("date=".data ++ "2024-01-01".data) ∈
      dropCurrentDate ["date=2024-01-01".data, "date=2024-01-02".data]
        "2024-01-02".data :=
  ⟨(current_day_excluded ["date=2024-01-01".data, "date=2024-01-02".data]
      "2024-01-02".data "2024-01-02".data rfl).1 rfl,
   (current_day_excluded ["date=2024-01-01".data, "date=2024-01-02".data]
      "2024-01-02".data "2024-01-01".data (by decide)).2 (by decide) (by decide)⟩

/-! ### Filename patterns and directory listings -/

/-- Python `str.startswith` over character lists. -/
def startswith (s p : List Char) : Bool :=
  decide (s.take p.length = p)

/-- `re.match("nfcapd\.\d{12}", name)` with the module-level pattern of
`src/nfdump2parquet.py` line 25.  `re.match` anchors at the start of
the string only: the name must begin with the literal `nfcapd.`
followed by 12 digits; anything may follow. -/
def matchNfcapd (name : List Char) : Bool :=
  startswith name "nfcapd.".data &&
    decide (12 ≤ (name.drop 7).length) &&
    ((name.drop 7).take 12).all Char.isDigit

/-- Head match of `/nfcapd` + one non-newline character + 12 digits —
the tail of the watcher regex, whose dot after `nfcapd` is unescaped in
`src/watch.py` line 31 and therefore matches any non-newline
character. -/
def matchSlashNfcapdHere (s : List Char) : Bool :=
  startswith s "/nfcapd".data &&
    match s.drop 7 with
    | [] => false
    | c :: rest =>
      decide (c ≠ '\n') && decide (12 ≤ rest.length) &&
        (rest.take 12).all Char.isDigit

/-- `re.match(".*/nfcapd.\d{12}", path)` — the watcher's event filter
(`src/watch.py` lines 30–32 via `RegexMatchingEventHandler`): a prefix
of non-newline characters, then `/nfcapd`, one non-newline character
and 12 digits; the end is unanchored. -/
def watcherMatch : List Char → Bool
  | [] => false
  | c :: cs => matchSlashNfcapdHere (c :: cs) || (decide (c ≠ '\n') && watcherMatch cs)

/-- Occurrence of the literal `.parquet` after a run of non-newline
characters (the `.*\.parquet` tail of the compaction pattern). -/
def hasDotParquet : List Char → Bool
  | [] => false
  | c :: cs => startswith (c :: cs) ".parquet".data || (decide (c ≠ '\n') && hasDotParquet cs)

/-- `re.match("\d{12}.*\.parquet", name)` — the source-file pattern of
batch compaction (`src/coalesce.py` line 275): 12 digits at the start,
then any non-newline characters, then the literal `.parquet`; the end
is unanchored. -/
def matchTwelveDigitParquet (name : List Char) : Bool :=
  decide (12 ≤ name.length) && (name.take 12).all Char.isDigit &&
    hasDotParquet (name.drop 12)

/-- An `os.scandir` entry: a name and whether it is a regular file. -/
structure DirEntry where
  name : List Char
  isFile : Bool
deriving DecidableEq

/-- Append a trailing `/` unless already present (`src/coalesce.py`
lines 232–233 and `src/nfdump2parquet.py` lines 304–305). -/
def normSlash (directory : List Char) : List Char :=
  if endswith directory "/".data then directory else directory ++ "/".data

/-- `list_files(directory, pattern)` of `src/coalesce.py` lines
227–241: skip hidden entries and non-files, keep names matched by the
pattern, and return them prefixed with the directory. -/
def list_files (directory : List Char) (rmatch : List Char → Bool)
    (entries : List DirEntry) : List (List Char) :=
  entries.filterMap (fun e =>
    if !startswith e.name ".".data && e.isFile && rmatch e.name then
      some (normSlash directory ++ e.name)
    else none)

/-- A filesystem node for the recursive listing of
`src/nfdump2parquet.py`. -/
inductive FNode where
  | file (name : List Char)
  | dir (name : List Char) (children : List FNode)

/-- The scandir loop of `list_files` in `src/nfdump2parquet.py` (lines
306–315), with the directory prefix already slash-normalized: a
non-hidden regular file is collected when its name matches
`nfcapd\.\d{12}`; a non-hidden subdirectory is walked when
`recursive`. -/
def scanEntries (recursive : Bool) : List Char → List FNode → List (List Char)
  | _, [] => []
  | d, FNode.file name :: rest =>
    (if !startswith name ".".data && matchNfcapd name then [d ++ name] else []) ++
      scanEntries recursive d rest
  | d, FNode.dir name children :: rest =>
    (if !startswith name ".".data && recursive then
        scanEntries recursive (normSlash (d ++ name)) children
      else []) ++
      scanEntries recursive d rest

/-- `list_files(directory, recursive)` of `src/nfdump2parquet.py` lines
299–315. -/
def list_files_nf (directory : List Char) (recursive : Bool)
    (entries : List FNode) : List (List Char) :=
  scanEntries recursive (normSlash directory) entries

/-! ### The per-hour compaction step (`src/coalesce.py`, `main`) -/

/-- Lexicographic comparison of character lists (the order Python's
`sorted` uses on strings). -/
def lexLe : List Char → List Char → Bool
  | [], _ => true
  | _ :: _, [] => false
  | a :: xs, b :: ys => if a = b then lexLe xs ys else decide (a < b)

def insertSorted (s : List Char) : List (List Char) → List (List Char)
  | [] => [s]
  | t :: ts => if lexLe s t then s :: t :: ts else t :: insertSorted s ts

/-- Python `sorted` on a list of strings (insertion sort by the
lexicographic order). -/
def sortStrings : List (List Char) → List (List Char)
  | [] => []
  | s :: ss => insertSorted s (sortStrings ss)

/-- The coalesced output artifact name
`f"{datestr}-{hourstr}:00.parquet"` (`src/coalesce.py` line 281). -/
def outName (datestr hourstr : List Char) : List Char :=
  datestr ++ "-".data ++ hourstr ++ ":00.parquet".data

/-- One iteration of the per-hour compaction loop of `main`
(`src/coalesce.py` lines 274–283) over the entries of one
`date=…/hour=…` directory.  `writeRes` abstracts the outcome of the
parquet write performed by `coalesce_parquets`; a raised write error
propagates before any `os.remove` runs, so the originals survive it.
On success the matched originals are removed and the output artifact is
present.  Returns the outcome and the directory contents afterwards. -/
def compactHour (coalesceDir datestr hourstr : List Char)
    (entries : List DirEntry) (writeRes : Except Unit Unit) :
    Except Unit Unit × List DirEntry :=
  let files := sortStrings (list_files coalesceDir matchTwelveDigitParquet entries)
  if files.isEmpty then (Except.ok (), entries)
  else
    match writeRes with
    | Except.error e => (Except.error e, entries)
    | Except.ok _ =>
      (Except.ok (),
       (entries.filter (fun e => !(files.contains (normSlash coalesceDir ++ e.name)))) ++
         [⟨outName datestr hourstr, true⟩])

/-- C3: in batch compaction of one hour partition, the original source
files are deleted only if the coalesced output write succeeded — when
the write raises, the per-hour step leaves the directory contents, and
so every original source file of the partition, exactly as they were,
ready for a retry. -/
theorem compact_failed_write_keeps_files (coalesceDir datestr hourstr : List Char)
    (entries : List DirEntry) (e : Unit) :
    (compactHour coalesceDir datestr hourstr entries (Except.error e)).2 = entries := by
  unfold compactHour
  by_cases h :
      (sortStrings (list_files coalesceDir matchTwelveDigitParquet entries)).isEmpty
  · simp [h]
  · simp [h]

/-- C6: re-running batch compaction on an hour partition that was
already compacted — the 12-digit-named originals deleted, only the
output artifact `YYYY-MM-DD-HH:00.parquet` remaining — is a no-op: the
file listing matches nothing (the artifact's name has a `-` among its
first 12 characters), so nothing is processed or deleted and no error
is raised, whatever the (never consulted) write outcome would be. -/
theorem compact_idempotent (coalesceDir y z hourstr : List Char)
    (hy : y.length = 4) (writeRes : Except Unit Unit) :
    compactHour coalesceDir (y ++ "-".data ++ z) hourstr
        [⟨outName (y ++ "-".data ++ z) hourstr, true⟩] writeRes =
      (Except.ok (), [⟨outName (y ++ "-".data ++ z) hourstr, true⟩]) := by
  have hname : outName (y ++ "-".data ++ z) hourstr =
      y ++ '-' :: (z ++ '-' :: (hourstr ++ ":00.parquet".data)) := by
    simp [outName]
  have hdash : ('-').isDigit = false := by decide
  have hall : ∀ t : List Char, ((y ++ '-' :: t).take 12).all Char.isDigit = false := by
    intro t
    rw [List.take_append_eq_append_take, List.take_of_length_le (by omega), hy]
    simp [List.take_succ_cons, hdash]
  have hmatch :
      matchTwelveDigitParquet (outName (y ++ "-".data ++ z) hourstr) = false := by
    rw [hname]
    unfold matchTwelveDigitParquet
    simp [hall]
  have hlf : list_files coalesceDir matchTwelveDigitParquet
      [⟨outName (y ++ "-".data ++ z) hourstr, true⟩] = [] := by
    have hm2 : matchTwelveDigitParquet (outName (y ++ '-' :: z) hourstr) = false := by
      simpa using hmatch
    simp [list_files, hm2]
  unfold compactHour
  rw [hlf]
  rfl

theorem compact_idempotent_witness :
    compactHour "base/date=2024-01-01/hour=22".data
        ("2024".data ++ "-".data ++ "01-01".data) "22".data
        [⟨outName ("2024".data ++ "-".data ++ "01-01".data) "22".data, true⟩]
        (Except.error ()) =
      (Except.ok (),
       [⟨outName ("2024".data ++ "-".data ++ "01-01".data) "22".data, true⟩]) :=
  compact_idempotent "base/date=2024-01-01/hour=22".data "2024".data "01-01".data
    "22".data (by decide) (Except.error ())

/-- The filename contract as the spec states it: the basename is the
literal prefix `nfcapd.` followed by exactly 12 digits (and nothing
else — any other naming is claimed to be ignored). -/
def specExactNfcapdName (name : List Char) : Prop :=
  ∃ ds : List Char, name = "nfcapd.".data ++ ds ∧ ds.length = 12 ∧
    ds.all Char.isDigit = true

/-- C8 counterexample: the batch converter's listing selects
`nfcapd.202401010000.tmp`, whose basename is not `nfcapd.` plus exactly
12 digits (the regex is unanchored at the end), and the watcher's
filter accepts `/data/nfcapdX202401010000`, whose basename does not
even carry the literal prefix `nfcapd.` (the dot of the watcher regex
is unescaped) — so neither component ignores every other naming. -/
theorem nfcapd_pattern_counterexample :
    list_files_nf "w".data false [FNode.file "nfcapd.202401010000.tmp".data] =
      ["w/nfcapd.202401010000.tmp".data] ∧
    ¬ specExactNfcapdName "nfcapd.202401010000.tmp".data ∧
    watcherMatch "/data/nfcapdX202401010000".data = true ∧
    ¬ specExactNfcapdName "nfcapdX202401010000".data := by
  refine ⟨?_, ?_, by decide, ?_⟩
  · rw [list_files_nf, scanEntries, scanEntries]
    decide
  · rintro ⟨ds, hname, hlen, _⟩
    have h1 : ("nfcapd.202401010000.tmp".data).length = 23 := by decide
    have h2 : ("nfcapd.".data).length = 7 := by decide
    rw [hname, List.length_append, h2, hlen] at h1
    omega
  · rintro ⟨ds, hname, _, _⟩
    have htake := congrArg (List.take 7) hname
    rw [List.take_left' (by decide : ("nfcapd.".data).length = 7)] at htake
    have h3 : ("nfcapdX202401010000".data).take 7 = "nfcapdX".data := by decide
    rw [h3] at htake
    exact absurd htake (by decide)

/-- The locator pattern characterized: `matchNfcapd` accepts exactly
the names that begin with `nfcapd.` followed by 12 digits, with
arbitrary trailing characters. -/
theorem matchNfcapd_iff (name : List Char) :
    matchNfcapd name = true ↔
      ∃ ds rest : List Char, name = "nfcapd.".data ++ (ds ++ rest) ∧
        ds.length = 12 ∧ ds.all Char.isDigit = true := by
  have h7 : ("nfcapd.".data).length = 7 := rfl
  unfold matchNfcapd startswith
  simp only [Bool.and_eq_true, decide_eq_true_iff]
  constructor
  · rintro ⟨⟨htake, hlen⟩, hdig⟩
    rw [h7] at htake
    refine ⟨(name.drop 7).take 12, (name.drop 7).drop 12, ?_, ?_, hdig⟩
    · rw [List.take_append_drop]
      conv_lhs => rw [← List.take_append_drop 7 name, htake]
    · rw [List.length_take]
      exact min_eq_left hlen
  · rintro ⟨ds, rest, rfl, hlen, hdig⟩
    have hdrop : ("nfcapd.".data ++ (ds ++ rest)).drop 7 = ds ++ rest := by
      have h := List.drop_left "nfcapd.".data (ds ++ rest)
      rwa [h7] at h
    refine ⟨⟨List.take_left _ _, ?_⟩, ?_⟩
    · rw [hdrop, List.length_append]
      omega
    · rw [hdrop, List.take_left' hlen]
      exact hdig

/-- Head match of the watcher regex tail characterized. -/
theorem matchSlashNfcapdHere_iff (s : List Char) :
    matchSlashNfcapdHere s = true ↔
      ∃ (c : Char) (ds rest : List Char),
        s = "/nfcapd".data ++ c :: (ds ++ rest) ∧ c ≠ '\n' ∧
          ds.length = 12 ∧ ds.all Char.isDigit = true := by
  have h7 : ("/nfcapd".data).length = 7 := rfl
  unfold matchSlashNfcapdHere startswith
  constructor
  · intro h
    rw [Bool.and_eq_true] at h
    obtain ⟨htake, hrest⟩ := h
    rw [decide_eq_true_iff, h7] at htake
    cases hd : s.drop 7 with
    | nil =>
      rw [hd] at hrest
      exact absurd hrest (by simp)
    | cons c rest0 =>
      rw [hd] at hrest
      simp only [Bool.and_eq_true, decide_eq_true_iff] at hrest
      obtain ⟨⟨hc, hlen⟩, hdig⟩ := hrest
      refine ⟨c, rest0.take 12, rest0.drop 12, ?_, hc, ?_, hdig⟩
      · rw [List.take_append_drop]
        conv_lhs => rw [← List.take_append_drop 7 s, htake, hd]
      · rw [List.length_take]
        exact min_eq_left hlen
  · rintro ⟨c, ds, rest, rfl, hc, hlen, hdig⟩
    have hdrop : ("/nfcapd".data ++ c :: (ds ++ rest)).drop 7 = c :: (ds ++ rest) := by
      have h := List.drop_left "/nfcapd".data (c :: (ds ++ rest))
      rwa [h7] at h
    rw [Bool.and_eq_true]
    refine ⟨by rw [decide_eq_true_iff]; exact List.take_left _ _, ?_⟩
    rw [hdrop]
    simp only [Bool.and_eq_true, decide_eq_true_iff]
    refine ⟨⟨hc, ?_⟩, ?_⟩
    · rw [List.length_append]
      omega
    · rw [List.take_left' hlen]
      exact hdig

/-- The watcher filter characterized: `watcherMatch` accepts exactly
the paths containing `/nfcapd`, one arbitrary non-newline character and
12 digits, after a prefix of non-newline characters. -/
theorem watcherMatch_iff (path : List Char) :
    watcherMatch path = true ↔
      ∃ (a : List Char) (c : Char) (ds rest : List Char),
        path = a ++ ("/nfcapd".data ++ c :: (ds ++ rest)) ∧
          (∀ x ∈ a, x ≠ '\n') ∧ c ≠ '\n' ∧ ds.length = 12 ∧
          ds.all Char.isDigit = true := by
  induction path with
  | nil =>
    simp only [watcherMatch, Bool.false_eq_true, false_iff]
    rintro ⟨a, c, ds, rest, heq, -⟩
    have h := congrArg List.length heq
    rw [List.length_append, List.length_append] at h
    simp at h
    omega
  | cons x cs ih =>
    rw [watcherMatch]
    constructor
    · intro h
      rw [Bool.or_eq_true] at h
      rcases h with hhere | hrec
      · obtain ⟨c, ds, rest, heq, hc, hlen, hdig⟩ :=
          (matchSlashNfcapdHere_iff _).mp hhere
        exact ⟨[], c, ds, rest, by rw [heq]; rfl, by simp, hc, hlen, hdig⟩
      · rw [Bool.and_eq_true, decide_eq_true_iff] at hrec
        obtain ⟨hx, hm⟩ := hrec
        obtain ⟨a, c, ds, rest, heq, ha, hc, hlen, hdig⟩ := ih.mp hm
        refine ⟨x :: a, c, ds, rest, by rw [List.cons_append, ← heq], ?_, hc, hlen, hdig⟩
        intro y hy
        rcases List.mem_cons.mp hy with rfl | hy
        · exact hx
        · exact ha y hy
    · rintro ⟨a, c, ds, rest, heq, ha, hc, hlen, hdig⟩
      cases a with
      | nil =>
        rw [List.nil_append] at heq
        rw [Bool.or_eq_true]
        left
        rw [heq]
        exact (matchSlashNfcapdHere_iff _).mpr ⟨c, ds, rest, rfl, hc, hlen, hdig⟩
      | cons a0 as0 =>
        rw [List.cons_append] at heq
        injection heq with hx0 hcs
        rw [Bool.or_eq_true]
        right
        rw [Bool.and_eq_true, decide_eq_true_iff]
        refine ⟨hx0 ▸ ha a0 (List.mem_cons_self _ _), ?_⟩
        exact ih.mpr ⟨as0, c, ds, rest, hcs,
          fun y hy => ha y (List.mem_cons_of_mem _ hy), hc, hlen, hdig⟩

/-- C8 amended: the batch converter's pattern selects a basename iff it
begins with the literal `nfcapd.` followed by 12 digits, with arbitrary
trailing characters allowed (the match is anchored at the start only);
the watcher's filter selects a path iff it contains `/nfcapd` followed
by any single non-newline character (the dot of its regex being
unescaped) and 12 digits.  Names of the exact form `nfcapd.` plus 12
digits are selected by both, but they are not the only ones. -/
theorem nfcapd_pattern_amended :
    (∀ name : List Char, matchNfcapd name = true ↔
        ∃ ds rest : List Char, name = "nfcapd.".data ++ (ds ++ rest) ∧
          ds.length = 12 ∧ ds.all Char.isDigit = true) ∧
    (∀ path : List Char, watcherMatch path = true ↔
        ∃ (a : List Char) (c : Char) (ds rest : List Char),
          path = a ++ ("/nfcapd".data ++ c :: (ds ++ rest)) ∧
            (∀ x ∈ a, x ≠ '\n') ∧ c ≠ '\n' ∧ ds.length = 12 ∧
            ds.all Char.isDigit = true) :=
  ⟨matchNfcapd_iff, watcherMatch_iff⟩

theorem nfcapd_pattern_amended_witness :
    matchNfcapd "nfcapd.202401010000".data = true ∧
    watcherMatch "/data/nfcapd.202401010000".data = true :=
  ⟨(nfcapd_pattern_amended.1 "nfcapd.202401010000".data).mpr
      ⟨"202401010000".data, [], by decide, by decide, by decide⟩,
   (nfcapd_pattern_amended.2 "/data/nfcapd.202401010000".data).mpr
      ⟨"/data".data, '.', "202401010000".data, [], by decide, by decide,
        by decide, by decide, by decide⟩⟩

end N2P
